import Mathlib

/- Verification development for the public surface of loopy
   (src/loopy/__init__.py) and for the linearization engine that the
   repository's specification describes.  The registration helpers, the
   cache-mode context manager and set_options are embedded directly from
   the source file; the scheduler, reduction realizer and dependency
   graph builder live outside src/ and are modelled from the spec. -/

set_option maxHeartbeats 1000000

/-- Modelled from the spec: the outcome of loopy.tools.unpickles_equally
applied to a user-supplied callback (loopy.tools is not under src/).  A
mangler carries a stable identity and the result of the pickle
round-trip equality check that the registration functions consult. -/
structure Mangler where
  ident : Nat
  unpicklesEqually : Bool
deriving DecidableEq, Repr

/-- Modelled from the spec: the attribute table of a loopy.options.Options
object (loopy.options is not under src/). -/
structure Opts where
  entries : List (String × Int)
deriving DecidableEq, Repr

/-- Attribute-existence test, the model of Python hasattr on an Options object. -/
def Opts.hasKey (o : Opts) (key : String) : Prop :=
  key ∈ o.entries.map Prod.fst

instance (o : Opts) (key : String) : Decidable (o.hasKey key) :=
  inferInstanceAs (Decidable (key ∈ o.entries.map Prod.fst))

/-- Attribute update, the model of Python setattr on an Options object. -/
def Opts.setattr (o : Opts) (key : String) (v : Int) : Opts :=
  ⟨o.entries.map (fun p => if p.1 = key then (key, v) else p)⟩

/-- Modelled from the spec: Options.update, used on the positional-argument
path of set_options (loopy.options is not under src/). -/
def Opts.update (o other : Opts) : Opts :=
  ⟨o.entries.map (fun p =>
     match other.entries.lookup p.1 with
     | some v => (p.1, v)
     | none => p)⟩

/-- Modelled from the spec: the fields of loopy.kernel.LoopKernel
(not under src/) that the glue functions of src/loopy/__init__.py read
and copy. -/
structure LoopKernel where
  options : Opts
  preamble_generators : List Mangler := []
  symbol_manglers : List Mangler := []
  function_manglers : List Mangler := []
deriving DecidableEq, Repr

/-- Modelled from the spec: loopy.diagnostic.LoopyError (not under src/). -/
structure LoopyError where
  msg : String
deriving DecidableEq, Repr

/-- Shared loop body of register_preamble_generators, register_symbol_manglers
and register_function_manglers in src/loopy/__init__.py: walk the supplied
callbacks, skip the ones already present, validate the pickle round trip for
each new one and insert it at position 0 of the list. -/
def addManglers (desc : String) : List Mangler → List Mangler → Except LoopyError (List Mangler)
  | acc, [] => Except.ok acc
  | acc, m :: rest =>
    if m ∈ acc then addManglers desc acc rest
    else if m.unpicklesEqually then addManglers desc (m :: acc) rest
    else Except.error ⟨desc ++ " does not compare equally after being upickled and would disrupt caches"⟩

/-- register_preamble_generators of src/loopy/__init__.py. -/
def register_preamble_generators (kernel : LoopKernel) (preamble_generators : List Mangler) :
    Except LoopyError LoopKernel :=
  (addManglers "preamble generator" kernel.preamble_generators preamble_generators).map
    (fun l => { kernel with preamble_generators := l })

/-- register_symbol_manglers of src/loopy/__init__.py. -/
def register_symbol_manglers (kernel : LoopKernel) (manglers : List Mangler) :
    Except LoopyError LoopKernel :=
  (addManglers "mangler" kernel.symbol_manglers manglers).map
    (fun l => { kernel with symbol_manglers := l })

/-- register_function_manglers of src/loopy/__init__.py. -/
def register_function_manglers (kernel : LoopKernel) (manglers : List Mangler) :
    Except LoopyError LoopKernel :=
  (addManglers "mangler" kernel.function_manglers manglers).map
    (fun l => { kernel with function_manglers := l })

/-- The process-wide caching flag CACHING_ENABLED of src/loopy/__init__.py,
made an explicit state value so the scoped override can be stated. -/
structure CacheState where
  CACHING_ENABLED : Bool
deriving DecidableEq, Repr

/-- set_caching_enabled of src/loopy/__init__.py: overwrite the global flag. -/
def set_caching_enabled (flag : Bool) (_s : CacheState) : CacheState :=
  ⟨flag⟩

/-- CacheMode of src/loopy/__init__.py: a context manager holding the
requested flag and, between enter and exit, the saved previous mode. -/
structure CacheMode where
  new_flag : Bool
  previous_mode : Option Bool := none
deriving DecidableEq, Repr

/-- CacheMode.__enter__: save the current flag into the manager and install
the new flag. -/
def CacheMode.enter (cm : CacheMode) (s : CacheState) : CacheMode × CacheState :=
  ({ cm with previous_mode := some s.CACHING_ENABLED }, ⟨cm.new_flag⟩)

/-- CacheMode.__exit__: restore the saved flag; the exception information is
ignored, so the restore happens on the exceptional path as well. -/
def CacheMode.exit (cm : CacheMode) (_exc : Option String) (_s : CacheState) : CacheState :=
  match cm.previous_mode with
  | some p => ⟨p⟩
  | none => _s

/-- Error values raised by set_options. -/
inductive OptErr
  | typeErr (msg : String)
  | valueErr (msg : String)
deriving DecidableEq, Repr

/-- Modelled from the spec: loopy.options._apply_legacy_map applied to
Options._legacy_options_map (loopy.options is not under src/): rename
legacy keyword names before the attribute check. -/
def apply_legacy_map (lmap : List (String × String)) (kwargs : List (String × Int)) :
    List (String × Int) :=
  kwargs.map (fun p => ((lmap.lookup p.1).getD p.1, p.2))

/-- The keyword loop of set_options: reject the first keyword that is not an
existing attribute, otherwise set each requested value. -/
def setAttrsLoop (o : Opts) : List (String × Int) → Except OptErr Opts
  | [] => Except.ok o
  | (key, v) :: rest =>
    if o.hasKey key then setAttrsLoop (o.setattr key v) rest
    else Except.error (OptErr.valueErr ("unknown option " ++ key))

/-- set_options of src/loopy/__init__.py.  The legacy-name map and the
string parser make_options are external collaborators (loopy.options is not
under src/) and are passed in as parameters. -/
def set_options (lmap : List (String × String)) (make_options : String → Opts)
    (kernel : LoopKernel) (args : List String) (kwargs : List (String × Int)) :
    Except OptErr LoopKernel :=
  if args ≠ [] ∧ kwargs ≠ [] then
    Except.error (OptErr.typeErr "cannot pass both positional and keyword arguments")
  else if kwargs ≠ [] then
    (setAttrsLoop kernel.options (apply_legacy_map lmap kwargs)).map
      (fun o => { kernel with options := o })
  else
    match args with
    | [arg] => Except.ok { kernel with options := kernel.options.update (make_options arg) }
    | _ => Except.error (OptErr.typeErr
        "exactly one positional argument is required if no keyword args are given")

/-- Modelled from the spec: the iname execution-semantics tags of the kernel
model (loopy.kernel.data is not under src/): sequential, unrolled,
vectorized, the two hardware-parallel flavors, or untagged. -/
inductive Tag
  | sequential
  | unrolled
  | vectorized
  | hwLocal
  | hwGroup
  | untagged
deriving DecidableEq, Repr

/-- A tag is hardware-parallel when it is one of the two parallel flavors. -/
def Tag.isHwParallel : Tag → Bool
  | Tag.hwLocal => true
  | Tag.hwGroup => true
  | _ => false

/-- Two tags belong to the same hardware-parallel class: both work-group
local or both grid-scoped. -/
def sameHwClass (a b : Tag) : Prop :=
  (a = Tag.hwLocal ∧ b = Tag.hwLocal) ∨ (a = Tag.hwGroup ∧ b = Tag.hwGroup)

instance (a b : Tag) : Decidable (sameHwClass a b) :=
  inferInstanceAs (Decidable (_ ∨ _))

/-- Modelled from the spec: reduction operators (sum, product, min/max). -/
inductive ReduOp
  | sum
  | prod
  | maxOp
  | minOp
deriving DecidableEq, Repr

/-- Modelled from the spec: the expression language carried by an
instruction, with an explicit reduction node (loopy.symbolic is not under
src/).  Only the structure that the reduction realizer manipulates is kept. -/
inductive Expr
  | var (name : String)
  | lit (n : Int)
  | binop (op : ReduOp) (a b : Expr)
  | reduce (op : ReduOp) (inames : List String) (body : Expr)
deriving DecidableEq, Repr

/-- An expression is realized when no reduction node remains in it. -/
def reductionFree : Expr → Bool
  | Expr.var _ => true
  | Expr.lit _ => true
  | Expr.binop _ a b => reductionFree a && reductionFree b
  | Expr.reduce _ _ _ => false

/-- Modelled from the spec: the identity element of a reduction operator
(for example zero for sum); for min and max a placeholder literal stands
for the extremal element. -/
def ReduOp.identity : ReduOp → Expr
  | ReduOp.sum => Expr.lit 0
  | ReduOp.prod => Expr.lit 1
  | ReduOp.maxOp => Expr.lit 0
  | ReduOp.minOp => Expr.lit 0

/-- Modelled from the spec: an instruction of the kernel model
(loopy.kernel.instruction is not under src/): identifier, the inames it is
nested within, explicit predecessors, a priority hint, the no-sync-with
suppression set, ordered-atomic variables and its expression. -/
structure Instruction where
  id : Nat
  within : List String := []
  deps : List Nat := []
  priority : Int := 0
  nosync : List Nat := []
  orderedAtomicVars : List String := []
  expr : Expr := Expr.lit 0
deriving DecidableEq, Repr

/-- Modelled from the spec: the kernel model handed to the linearization
engine: the instruction set and the iname tag assignment.  Domains are the
business of the external Domain Oracle and are not re-specified. -/
structure Kernel where
  instructions : List Instruction
  inameTags : List (String × Tag) := []
deriving DecidableEq, Repr

/-- Look up the tag of an iname; untagged when no tag was assigned. -/
def Kernel.tagOf (k : Kernel) (i : String) : Tag :=
  (k.inameTags.lookup i).getD Tag.untagged

/-- Well-formedness of the kernel model: instruction identifiers are unique. -/
def UniqueIds (k : Kernel) : Prop :=
  (k.instructions.map Instruction.id).Nodup

instance (k : Kernel) : Decidable (UniqueIds k) :=
  inferInstanceAs (Decidable (k.instructions.map Instruction.id).Nodup)

/-- Modelled from the spec: one schedule item — enter-loop, leave-loop,
run-instruction or barrier. -/
inductive SchedItem
  | enterLoop (iname : String)
  | leaveLoop (iname : String)
  | runInsn (insnId : Nat)
  | barrier
deriving DecidableEq, Repr

/-- Modelled from the spec: the state of the linearization search — the
item sequence so far, the identifiers already scheduled, and the stack of
open inames with the innermost first. -/
structure SchedulerState where
  items : List SchedItem := []
  scheduled : List Nat := []
  openLoops : List String := []
deriving DecidableEq, Repr

/-- Modelled from the spec: transition (a) of the search.  An instruction
may run when it is unscheduled, all its dependency predecessors are
scheduled, and the open-iname stack is exactly its within set. -/
def eligibleToRun (st : SchedulerState) (insn : Instruction) : Prop :=
  insn.id ∉ st.scheduled ∧ (∀ d ∈ insn.deps, d ∈ st.scheduled) ∧
    (∀ x ∈ insn.within, x ∈ st.openLoops) ∧ (∀ x ∈ st.openLoops, x ∈ insn.within)

instance (st : SchedulerState) (insn : Instruction) :
    Decidable (eligibleToRun st insn) :=
  inferInstanceAs (Decidable (insn.id ∉ st.scheduled ∧ (∀ d ∈ insn.deps, d ∈ st.scheduled) ∧
    (∀ x ∈ insn.within, x ∈ st.openLoops) ∧ (∀ x ∈ st.openLoops, x ∈ insn.within)))

/-- Tie-break order among eligible instructions: higher declared priority
first; the underlying stable sort preserves declaration order among equal
priorities. -/
def priorityOrder (a b : Instruction) : Prop :=
  b.priority ≤ a.priority

instance : DecidableRel priorityOrder :=
  fun a b => inferInstanceAs (Decidable (b.priority ≤ a.priority))

/-- The instructions that may run next, in deterministic preference order. -/
def runCandidates (k : Kernel) (st : SchedulerState) : List Instruction :=
  List.insertionSort priorityOrder
    (k.instructions.filter (fun insn => decide (eligibleToRun st insn)))

/-- All inames mentioned by any instruction, in declaration order. -/
def allInames (k : Kernel) : List String :=
  (k.instructions.map (fun i => i.within)).flatten.dedup

/-- Modelled from the spec: transition (b) of the search.  A loop may be
entered for an iname that is not yet open, is required by a not-yet-run
instruction compatible with the current context, and passes the nesting
legality rule that no open iname carries the same hardware-parallel class. -/
def enterCandidate (k : Kernel) (st : SchedulerState) (i : String) : Prop :=
  i ∉ st.openLoops ∧
    (∃ insn ∈ k.instructions, insn.id ∉ st.scheduled ∧ i ∈ insn.within ∧
      ∀ x ∈ st.openLoops, x ∈ insn.within) ∧
    (∀ j ∈ st.openLoops, ¬ sameHwClass (k.tagOf i) (k.tagOf j))

instance (k : Kernel) (st : SchedulerState) (i : String) :
    Decidable (enterCandidate k st i) :=
  inferInstanceAs (Decidable (i ∉ st.openLoops ∧
    (∃ insn ∈ k.instructions, insn.id ∉ st.scheduled ∧ i ∈ insn.within ∧
      ∀ x ∈ st.openLoops, x ∈ insn.within) ∧
    (∀ j ∈ st.openLoops, ¬ sameHwClass (k.tagOf i) (k.tagOf j))))

/-- The inames that may be opened next. -/
def enterCandidates (k : Kernel) (st : SchedulerState) : List String :=
  (allInames k).filter (fun i => decide (enterCandidate k st i))

/-- Append a run-instruction item. -/
def applyRun (st : SchedulerState) (insn : Instruction) : SchedulerState :=
  { items := st.items ++ [SchedItem.runInsn insn.id],
    scheduled := insn.id :: st.scheduled,
    openLoops := st.openLoops }

/-- Append an enter-loop item. -/
def applyEnter (st : SchedulerState) (i : String) : SchedulerState :=
  { items := st.items ++ [SchedItem.enterLoop i],
    scheduled := st.scheduled,
    openLoops := i :: st.openLoops }

/-- Modelled from the spec: transition (c) of the search.  The innermost
open loop is left once no unscheduled instruction still requires it. -/
def leaveStates (k : Kernel) (st : SchedulerState) : List SchedulerState :=
  match st.openLoops with
  | [] => []
  | h :: t =>
    if ∀ insn ∈ k.instructions, insn.id ∉ st.scheduled → h ∉ insn.within then
      [{ items := st.items ++ [SchedItem.leaveLoop h],
         scheduled := st.scheduled,
         openLoops := t }]
    else []

/-- Transition candidates at a search step, in the evaluated order of the
spec: run an instruction, enter a loop, leave a loop. -/
def nextStates (k : Kernel) (st : SchedulerState) : List SchedulerState :=
  (runCandidates k st).map (applyRun st) ++
    (enterCandidates k st).map (applyEnter st) ++ leaveStates k st

/-- Modelled from the spec: the accepting state — every instruction is
scheduled and the open-iname stack is empty. -/
def isComplete (k : Kernel) (st : SchedulerState) : Prop :=
  (∀ insn ∈ k.instructions, insn.id ∈ st.scheduled) ∧ st.openLoops = []

instance (k : Kernel) (st : SchedulerState) : Decidable (isComplete k st) :=
  inferInstanceAs (Decidable ((∀ insn ∈ k.instructions, insn.id ∈ st.scheduled) ∧
    st.openLoops = []))

/-- Depth-first backtracking search over partial schedules.  The fuel is
the search-node budget of the configuration; exhausting it abandons the
branch, which is the spec's cancellation mechanism. -/
def searchAux (k : Kernel) : Nat → SchedulerState → List (List SchedItem)
  | 0, _ => []
  | Nat.succ fuel, st =>
    if isComplete k st then [st.items]
    else ((nextStates k st).map (fun st' => searchAux k fuel st')).flatten

/-- Modelled from the spec: the recognized configuration options of the
linearization engine that bound the search. -/
structure SchedConfig where
  search_node_budget : Nat
  max_schedules : Nat := 1
deriving DecidableEq, Repr

/-- Modelled from the spec: generate_loop_schedules — enumerate accepted
schedules depth-first from the empty partial schedule, up to the
caller-specified bound. -/
def generate_loop_schedules (k : Kernel) (cfg : SchedConfig) : List (List SchedItem) :=
  (searchAux k cfg.search_node_budget {}).take cfg.max_schedules

/-- Modelled from the spec: get_one_scheduled_kernel — the first accepted
schedule, when one exists. -/
def get_one_scheduled_kernel (k : Kernel) (cfg : SchedConfig) : Option (List SchedItem) :=
  (generate_loop_schedules k cfg).head?

/-- Replay of an item sequence threading the open-iname stack and the list
of already-run identifiers, checking at every step the invariants that the
spec's Schedule Validator asserts: a leave matches the innermost open
iname, an entered iname clashes with no open iname of the same
hardware-parallel class, and a run instruction exists in the kernel, has
all predecessors already run and sees exactly its within set open.
Returns the final stack and run list, or none on any violation. -/
def replayFin (k : Kernel) : List SchedItem → List String → List Nat →
    Option (List String × List Nat)
  | [], stack, done => some (stack, done)
  | SchedItem.enterLoop i :: rest, stack, done =>
    if ∀ j ∈ stack, ¬ sameHwClass (k.tagOf i) (k.tagOf j) then
      replayFin k rest (i :: stack) done
    else none
  | SchedItem.leaveLoop _ :: _, [], _ => none
  | SchedItem.leaveLoop i :: rest, j :: t, done =>
    if i = j then replayFin k rest t done else none
  | SchedItem.runInsn n :: rest, stack, done =>
    if (∃ insn ∈ k.instructions, insn.id = n) ∧
        (∀ insn ∈ k.instructions, insn.id = n →
          (∀ d ∈ insn.deps, d ∈ done) ∧ (∀ x ∈ insn.within, x ∈ stack) ∧
            (∀ x ∈ stack, x ∈ insn.within)) then
      replayFin k rest stack (n :: done)
    else none
  | SchedItem.barrier :: rest, stack, done => replayFin k rest stack done

/-- Pure stack replay of an item sequence: push on enter, pop a matching
innermost iname on leave, fail on a mismatched or unopened leave.  The
stack of open inames at a schedule position is the successful replay of
the prefix up to it. -/
def replayStack : List SchedItem → List String → Option (List String)
  | [], stack => some stack
  | SchedItem.enterLoop i :: rest, stack => replayStack rest (i :: stack)
  | SchedItem.leaveLoop _ :: _, [] => none
  | SchedItem.leaveLoop i :: rest, j :: t =>
    if i = j then replayStack rest t else none
  | SchedItem.runInsn _ :: rest, stack => replayStack rest stack
  | SchedItem.barrier :: rest, stack => replayStack rest stack

/-- The search-state invariant: the recorded stack and run list are the
successful replay of the item sequence from the empty context. -/
def SchedInv (k : Kernel) (st : SchedulerState) : Prop :=
  replayFin k st.items [] [] = some (st.openLoops, st.scheduled)

/-- No two inames of the stack carry the same hardware-parallel class. -/
def PairwiseHwOk (k : Kernel) (stack : List String) : Prop :=
  List.Pairwise (fun a b => ¬ sameHwClass (k.tagOf a) (k.tagOf b)) stack

/-- Result of realizing the reductions of one expression: the rewritten
expression, the freshly created instructions, and the next fresh
identifier. -/
structure RealizeOut where
  expr : Expr
  newInsns : List Instruction
  nextId : Nat
deriving DecidableEq, Repr

/-- Modelled from the spec: the expression rewrite of the Reduction
Realizer.  Each reduction node becomes an accumulator temporary, an
initialization instruction at the host's within inames, and an update
instruction at the within inames extended by the reduced inames, with a
dependency edge from init to update; when a reduced iname is
hardware-parallel the tree realization adds a combination instruction
depending on the update.  Nested reductions are realized inner-first so
the outer rewrite sees a fully rewritten body.  Read-after-write edges
from the host instruction to the accumulator are the business of the
Dependency Graph Builder and are not added here. -/
def realizeExpr (tags : List (String × Tag)) (w : List String) :
    Expr → Nat → RealizeOut
  | Expr.var s, c => ⟨Expr.var s, [], c⟩
  | Expr.lit n, c => ⟨Expr.lit n, [], c⟩
  | Expr.binop op a b, c =>
    let r1 := realizeExpr tags w a c
    let r2 := realizeExpr tags w b r1.nextId
    ⟨Expr.binop op r1.expr r2.expr, r1.newInsns ++ r2.newInsns, r2.nextId⟩
  | Expr.reduce op inames body, c =>
    let r := realizeExpr tags w body c
    let accName := "acc" ++ toString r.nextId
    let initIns : Instruction :=
      { id := r.nextId, within := w, expr := op.identity }
    let updIns : Instruction :=
      { id := r.nextId + 1, within := w ++ inames, deps := [r.nextId],
        expr := Expr.binop op (Expr.var accName) r.expr }
    if inames.any (fun i => ((tags.lookup i).getD Tag.untagged).isHwParallel) then
      let combIns : Instruction :=
        { id := r.nextId + 2, within := w, deps := [r.nextId + 1],
          expr := Expr.binop op (Expr.var accName) (Expr.var accName) }
      ⟨Expr.var accName, r.newInsns ++ [initIns, updIns, combIns], r.nextId + 3⟩
    else
      ⟨Expr.var accName, r.newInsns ++ [initIns, updIns], r.nextId + 2⟩

/-- Realize the reductions of one instruction: the new instructions come
first, then the host instruction with its rewritten expression. -/
def realizeInsn (tags : List (String × Tag)) (insn : Instruction) (c : Nat) :
    List Instruction × Nat :=
  let r := realizeExpr tags insn.within insn.expr c
  (r.newInsns ++ [{ insn with expr := r.expr }], r.nextId)

/-- Realize the reductions of an instruction list, threading the fresh
identifier counter. -/
def realizeList (tags : List (String × Tag)) : List Instruction → Nat → List Instruction
  | [], _ => []
  | insn :: rest, c =>
    let p := realizeInsn tags insn c
    p.1 ++ realizeList tags rest p.2

/-- The largest instruction identifier of a list; fresh identifiers start
above it. -/
def maxId (l : List Instruction) : Nat :=
  l.foldr (fun i acc => max i.id acc) 0

/-- Modelled from the spec: realize_reduction (loopy.preprocess is not
under src/) — rewrite every reduction of every instruction into explicit
init and update (and, for parallel reductions, combination) instructions. -/
def realize_reduction (k : Kernel) : Kernel :=
  { k with instructions := realizeList k.inameTags k.instructions (maxId k.instructions + 1) }

/-- All ordered pairs of a list in which the first component appears
strictly before the second: the declaration-order pairs of the
Dependency Graph Builder. -/
def orderedPairs : List Instruction → List (Instruction × Instruction)
  | [] => []
  | x :: xs => xs.map (fun y => (x, y)) ++ orderedPairs xs

/-- Modelled from the spec: the inferred-conflict test of the Dependency
Graph Builder — the earlier instruction writes a variable the later one
reads or writes and neither lists the other in its no-sync-with set, or
both update the same ordered-atomic variable. -/
def conflictPair (readsOf writesOf : Nat → List String) (a b : Instruction) : Prop :=
  ((∃ v ∈ writesOf a.id, v ∈ readsOf b.id ∨ v ∈ writesOf b.id) ∧
      b.id ∉ a.nosync ∧ a.id ∉ b.nosync) ∨
    (∃ v ∈ a.orderedAtomicVars, v ∈ b.orderedAtomicVars)

instance (readsOf writesOf : Nat → List String) (a b : Instruction) :
    Decidable (conflictPair readsOf writesOf a b) :=
  inferInstanceAs (Decidable (_ ∨ _))

/-- Modelled from the spec: the must-precede edges derived by the
Dependency Graph Builder from explicit annotations, inferred access
conflicts in declaration order and ordered-atomic updates; duplicate
candidate edges collapse to one. -/
def depEdges (instrs : List Instruction) (readsOf writesOf : Nat → List String) :
    List (Nat × Nat) :=
  ((instrs.map (fun b => b.deps.map (fun d => (d, b.id)))).flatten ++
    (orderedPairs instrs).filterMap (fun p =>
      if conflictPair readsOf writesOf p.1 p.2 then some (p.1.id, p.2.id) else none)).dedup

/-- A node of the remaining set still has an incoming edge from the
remaining set. -/
def hasIncomingFrom (edges : List (Nat × Nat)) (rem : List Nat) (n : Nat) : Prop :=
  ∃ e ∈ edges, e.2 = n ∧ e.1 ∈ rem

instance (edges : List (Nat × Nat)) (rem : List Nat) (n : Nat) :
    Decidable (hasIncomingFrom edges rem n) :=
  inferInstanceAs (Decidable (∃ e ∈ edges, e.2 = n ∧ e.1 ∈ rem))

/-- One elimination round: drop every node with no incoming edge from the
remaining set. -/
def elimStep (edges : List (Nat × Nat)) (rem : List Nat) : List Nat :=
  rem.filter (fun n => decide (hasIncomingFrom edges rem n))

/-- Iterated elimination; after as many rounds as there are nodes, only
nodes on cycles (or reachable from cycles) survive. -/
def elimAux (edges : List (Nat × Nat)) : Nat → List Nat → List Nat
  | 0, rem => rem
  | Nat.succ f, rem => elimAux edges f (elimStep edges rem)

/-- Modelled from the spec: the structural error of the Dependency Graph
Builder, naming the offending instructions of a detected cycle. -/
structure DepGraphError where
  offending : List Nat
deriving DecidableEq, Repr

/-- Modelled from the spec: the Dependency Graph Builder — derive the
must-precede edges and fail with a structural error naming the offending
instructions when elimination leaves a cyclic residue, otherwise return
the acyclic edge list. -/
def build_dependency_graph (instrs : List Instruction) (readsOf writesOf : Nat → List String) :
    Except DepGraphError (List (Nat × Nat)) :=
  let edges := depEdges instrs readsOf writesOf
  let bad := elimAux edges instrs.length (instrs.map Instruction.id)
  if bad = [] then Except.ok edges else Except.error ⟨bad⟩

/-- Consecutive elements of the list are joined by an edge. -/
def chainOk (edges : List (Nat × Nat)) : List Nat → Prop
  | [] => True
  | [_] => True
  | a :: b :: rest => (a, b) ∈ edges ∧ chainOk edges (b :: rest)

instance chainOkDec (edges : List (Nat × Nat)) : (c : List Nat) → Decidable (chainOk edges c)
  | [] => isTrue trivial
  | [_] => isTrue trivial
  | a :: b :: rest =>
    have : Decidable (chainOk edges (b :: rest)) := chainOkDec edges (b :: rest)
    inferInstanceAs (Decidable ((a, b) ∈ edges ∧ chainOk edges (b :: rest)))

/-- A nonempty list of nodes is a cycle of the edge relation: consecutive
nodes are joined by edges and an edge closes the last node back to the
first. -/
def IsCycle (edges : List (Nat × Nat)) : List Nat → Prop
  | [] => False
  | h :: t => chainOk edges (h :: t) ∧ (t.getLastD h, h) ∈ edges

instance (edges : List (Nat × Nat)) (c : List Nat) : Decidable (IsCycle edges c) :=
  match c with
  | [] => isFalse (fun h => h)
  | h :: t => inferInstanceAs (Decidable (chainOk edges (h :: t) ∧ (t.getLastD h, h) ∈ edges))

/-- The cumulative effect of the keyword loop of set_options on the
options object. -/
def applyKwargs (o : Opts) (kws : List (String × Int)) : Opts :=
  kws.foldl (fun o p => o.setattr p.1 p.2) o

theorem addManglers_all_mem (desc : String) :
    ∀ (ms acc : List Mangler), (∀ m ∈ ms, m ∈ acc) → addManglers desc acc ms = Except.ok acc := by
  intro ms
  induction ms with
  | nil => intro acc _; rfl
  | cons m rest ih =>
    intro acc h
    have hm : m ∈ acc := h m (List.mem_cons_self m rest)
    simp only [addManglers, if_pos hm]
    exact ih acc (fun x hx => h x (List.mem_cons_of_mem m hx))

theorem addManglers_ok (desc : String) :
    ∀ (ms acc : List Mangler), (∀ m ∈ ms, m.unpicklesEqually = true ∨ m ∈ acc) →
      ∃ l, addManglers desc acc ms = Except.ok l ∧ (∀ m ∈ ms, m ∈ l) ∧ ∀ x ∈ acc, x ∈ l := by
  intro ms
  induction ms with
  | nil => intro acc _; exact ⟨acc, rfl, by simp, fun x hx => hx⟩
  | cons m rest ih =>
    intro acc h
    by_cases hm : m ∈ acc
    · simp only [addManglers, if_pos hm]
      obtain ⟨l, hok, hrest, hacc⟩ := ih acc (fun x hx => h x (List.mem_cons_of_mem m hx))
      refine ⟨l, hok, ?_, hacc⟩
      intro x hx
      rcases List.mem_cons.mp hx with hx | hx
      · exact hx ▸ hacc m hm
      · exact hrest x hx
    · have hu : m.unpicklesEqually = true := by
        rcases h m (List.mem_cons_self m rest) with hu | hmem
        · exact hu
        · exact absurd hmem hm
      simp only [addManglers, if_neg hm, hu, if_pos]
      obtain ⟨l, hok, hrest, hacc⟩ := ih (m :: acc) (by
        intro x hx
        rcases h x (List.mem_cons_of_mem m hx) with hu' | hmem
        · exact Or.inl hu'
        · exact Or.inr (List.mem_cons_of_mem m hmem))
      refine ⟨l, hok, ?_, fun x hx => hacc x (List.mem_cons_of_mem m hx)⟩
      intro x hx
      rcases List.mem_cons.mp hx with hx | hx
      · exact hx ▸ hacc m (List.mem_cons_self m acc)
      · exact hrest x hx

theorem addManglers_error (desc : String) :
    ∀ (ms acc acc0 : List Mangler), (∀ x ∈ acc, x ∈ acc0 ∨ x.unpicklesEqually = true) →
      (∃ m ∈ ms, m.unpicklesEqually = false ∧ m ∉ acc0) →
      ∃ e, addManglers desc acc ms = Except.error e := by
  intro ms
  induction ms with
  | nil => intro acc acc0 _ h; simp at h
  | cons m rest ih =>
    intro acc acc0 hacc h
    obtain ⟨w, hw, hwu, hwna⟩ := h
    by_cases hm : m ∈ acc
    · simp only [addManglers, if_pos hm]
      have hwrest : w ∈ rest := by
        rcases List.mem_cons.mp hw with hweq | hwr
        · subst hweq
          rcases hacc w hm with h0 | h1
          · exact absurd h0 hwna
          · rw [hwu] at h1; exact absurd h1 (by simp)
        · exact hwr
      exact ih acc acc0 hacc ⟨w, hwrest, hwu, hwna⟩
    · by_cases hu : m.unpicklesEqually = true
      · simp only [addManglers, if_neg hm, hu, if_pos]
        have hwrest : w ∈ rest := by
          rcases List.mem_cons.mp hw with hweq | hwr
          · subst hweq; rw [hwu] at hu; exact absurd hu (by simp)
          · exact hwr
        refine ih (m :: acc) acc0 ?_ ⟨w, hwrest, hwu, hwna⟩
        intro x hx
        rcases List.mem_cons.mp hx with hx | hx
        · exact Or.inr (hx ▸ hu)
        · exact hacc x hx
      · simp only [addManglers, if_neg hm, if_neg hu]
        exact ⟨_, rfl⟩



/-- C7: register_function_manglers, register_symbol_manglers and
register_preamble_generators validate at registration time that every newly
added callback survives the pickle round trip, raise a LoopyError when a
new callback fails that check, and otherwise return a kernel with the
callbacks registered. -/
theorem c7_register_validates (k : LoopKernel) (ms : List Mangler) :
    ((∀ m ∈ ms, m.unpicklesEqually = true ∨ m ∈ k.function_manglers) →
      ∃ k', register_function_manglers k ms = Except.ok k' ∧
        ∀ m ∈ ms, m ∈ k'.function_manglers) ∧
    ((∃ m ∈ ms, m.unpicklesEqually = false ∧ m ∉ k.function_manglers) →
      ∃ e, register_function_manglers k ms = Except.error e) ∧
    ((∀ m ∈ ms, m.unpicklesEqually = true ∨ m ∈ k.symbol_manglers) →
      ∃ k', register_symbol_manglers k ms = Except.ok k' ∧
        ∀ m ∈ ms, m ∈ k'.symbol_manglers) ∧
    ((∃ m ∈ ms, m.unpicklesEqually = false ∧ m ∉ k.symbol_manglers) →
      ∃ e, register_symbol_manglers k ms = Except.error e) ∧
    ((∀ m ∈ ms, m.unpicklesEqually = true ∨ m ∈ k.preamble_generators) →
      ∃ k', register_preamble_generators k ms = Except.ok k' ∧
        ∀ m ∈ ms, m ∈ k'.preamble_generators) ∧
    ((∃ m ∈ ms, m.unpicklesEqually = false ∧ m ∉ k.preamble_generators) →
      ∃ e, register_preamble_generators k ms = Except.error e) := by
  refine ⟨?_, ?_, ?_, ?_, ?_, ?_⟩
  · intro h
    obtain ⟨l, hok, hms, _⟩ := addManglers_ok "mangler" ms k.function_manglers h
    exact ⟨{ k with function_manglers := l }, by rw [register_function_manglers, hok]; rfl, hms⟩
  · intro h
    obtain ⟨e, he⟩ := addManglers_error "mangler" ms k.function_manglers k.function_manglers
      (fun x hx => Or.inl hx) h
    exact ⟨e, by rw [register_function_manglers, he]; rfl⟩
  · intro h
    obtain ⟨l, hok, hms, _⟩ := addManglers_ok "mangler" ms k.symbol_manglers h
    exact ⟨{ k with symbol_manglers := l }, by rw [register_symbol_manglers, hok]; rfl, hms⟩
  · intro h
    obtain ⟨e, he⟩ := addManglers_error "mangler" ms k.symbol_manglers k.symbol_manglers
      (fun x hx => Or.inl hx) h
    exact ⟨e, by rw [register_symbol_manglers, he]; rfl⟩
  · intro h
    obtain ⟨l, hok, hms, _⟩ := addManglers_ok "preamble generator" ms k.preamble_generators h
    exact ⟨{ k with preamble_generators := l },
      by rw [register_preamble_generators, hok]; rfl, hms⟩
  · intro h
    obtain ⟨e, he⟩ := addManglers_error "preamble generator" ms k.preamble_generators
      k.preamble_generators (fun x hx => Or.inl hx) h
    exact ⟨e, by rw [register_preamble_generators, he]; rfl⟩

theorem c7_register_validates_witness :
    ∃ k', register_function_manglers { options := ⟨[]⟩ } [⟨0, true⟩] = Except.ok k' ∧
      ∀ m ∈ [(⟨0, true⟩ : Mangler)], m ∈ k'.function_manglers :=
  (c7_register_validates { options := ⟨[]⟩ } [⟨0, true⟩]).1 (by decide)

/-- C9: registration is idempotent and skips validation for callbacks
already present — with every supplied mangler already registered the kernel
comes back with its list unchanged and no pickle check is consulted (so a
failing check raises nothing) — while a genuinely new mangler is inserted
at the front of the list. -/
theorem c9_register_idempotent (k : LoopKernel) (ms : List Mangler) (m : Mangler) :
    ((∀ x ∈ ms, x ∈ k.function_manglers) → register_function_manglers k ms = Except.ok k) ∧
    (m ∉ k.function_manglers → m.unpicklesEqually = true →
      register_function_manglers k [m] =
        Except.ok { k with function_manglers := m :: k.function_manglers }) ∧
    ((∀ x ∈ ms, x ∈ k.symbol_manglers) → register_symbol_manglers k ms = Except.ok k) ∧
    (m ∉ k.symbol_manglers → m.unpicklesEqually = true →
      register_symbol_manglers k [m] =
        Except.ok { k with symbol_manglers := m :: k.symbol_manglers }) ∧
    ((∀ x ∈ ms, x ∈ k.preamble_generators) → register_preamble_generators k ms = Except.ok k) ∧
    (m ∉ k.preamble_generators → m.unpicklesEqually = true →
      register_preamble_generators k [m] =
        Except.ok { k with preamble_generators := m :: k.preamble_generators }) := by
  refine ⟨?_, ?_, ?_, ?_, ?_, ?_⟩
  · intro h
    rw [register_function_manglers, addManglers_all_mem "mangler" ms k.function_manglers h]
    rfl
  · intro hmem hu
    rw [register_function_manglers,
      show addManglers "mangler" k.function_manglers [m] =
        Except.ok (m :: k.function_manglers) by simp [addManglers, hmem, hu]]
    rfl
  · intro h
    rw [register_symbol_manglers, addManglers_all_mem "mangler" ms k.symbol_manglers h]
    rfl
  · intro hmem hu
    rw [register_symbol_manglers,
      show addManglers "mangler" k.symbol_manglers [m] =
        Except.ok (m :: k.symbol_manglers) by simp [addManglers, hmem, hu]]
    rfl
  · intro h
    rw [register_preamble_generators,
      addManglers_all_mem "preamble generator" ms k.preamble_generators h]
    rfl
  · intro hmem hu
    rw [register_preamble_generators,
      show addManglers "preamble generator" k.preamble_generators [m] =
        Except.ok (m :: k.preamble_generators) by simp [addManglers, hmem, hu]]
    rfl

theorem c9_register_idempotent_witness :
    register_function_manglers { options := ⟨[]⟩, function_manglers := [⟨7, false⟩] } [⟨7, false⟩] =
      Except.ok { options := ⟨[]⟩, function_manglers := [⟨7, false⟩] } :=
  (c9_register_idempotent { options := ⟨[]⟩, function_manglers := [⟨7, false⟩] }
    [⟨7, false⟩] ⟨7, false⟩).1 (by decide)

/-- C8: CacheMode is a scoped acquire-then-restore override of the
process-wide caching flag — entering installs the new flag, and exiting
(with or without a pending exception, and whatever the flag was set to in
between) restores exactly the value held at entry. -/
theorem c8_cache_mode_round_trip (s0 : CacheState) (flag : Bool) (exc : Option String)
    (s1 : CacheState) :
    ((CacheMode.enter { new_flag := flag } s0).2).CACHING_ENABLED = flag ∧
    CacheMode.exit (CacheMode.enter { new_flag := flag } s0).1 exc s1 = s0 ∧
    (set_caching_enabled flag s0).CACHING_ENABLED = flag := by
  refine ⟨rfl, ?_, rfl⟩
  cases s0
  rfl

theorem replayFin_append (k : Kernel) (l1 : List SchedItem) :
    ∀ (l2 : List SchedItem) (s : List String) (d : List Nat),
      replayFin k (l1 ++ l2) s d =
        (replayFin k l1 s d).bind (fun p => replayFin k l2 p.1 p.2) := by
  induction l1 with
  | nil => intro l2 s d; rfl
  | cons it rest ih =>
    intro l2 s d
    cases it with
    | enterLoop i =>
      simp only [List.cons_append, replayFin]
      split
      · exact ih l2 (i :: s) d
      · rfl
    | leaveLoop i =>
      cases s with
      | nil => rfl
      | cons j t =>
        simp only [List.cons_append, replayFin]
        split
        · exact ih l2 t d
        · rfl
    | runInsn n =>
      simp only [List.cons_append, replayFin]
      split
      · exact ih l2 s (n :: d)
      · rfl
    | barrier =>
      simp only [List.cons_append, replayFin]
      exact ih l2 s d

theorem replayFin_stack (k : Kernel) (l : List SchedItem) :
    ∀ (s : List String) (d : List Nat) (s2 : List String) (d2 : List Nat),
      replayFin k l s d = some (s2, d2) → replayStack l s = some s2 := by
  induction l with
  | nil =>
    intro s d s2 d2 h
    simp only [replayFin, Option.some_inj, Prod.mk.injEq] at h
    simp [replayStack, h.1]
  | cons it rest ih =>
    intro s d s2 d2 h
    cases it with
    | enterLoop i =>
      simp only [replayFin] at h
      split at h
      · exact ih (i :: s) d s2 d2 h
      · exact absurd h (by simp)
    | leaveLoop i =>
      cases s with
      | nil => exact absurd h (by simp [replayFin])
      | cons j t =>
        simp only [replayFin] at h
        split at h
        · rename_i heq
          simp only [replayStack, if_pos heq]
          exact ih t d s2 d2 h
        · exact absurd h (by simp)
    | runInsn n =>
      simp only [replayFin] at h
      split at h
      · exact ih s (n :: d) s2 d2 h
      · exact absurd h (by simp)
    | barrier =>
      simp only [replayFin] at h
      exact ih s d s2 d2 h

theorem replayFin_done_mem (k : Kernel) (l : List SchedItem) :
    ∀ (s : List String) (d : List Nat) (s2 : List String) (d2 : List Nat),
      replayFin k l s d = some (s2, d2) →
      ∀ x ∈ d2, SchedItem.runInsn x ∈ l ∨ x ∈ d := by
  induction l with
  | nil =>
    intro s d s2 d2 h x hx
    simp only [replayFin, Option.some_inj, Prod.mk.injEq] at h
    exact Or.inr (h.2 ▸ hx)
  | cons it rest ih =>
    intro s d s2 d2 h x hx
    cases it with
    | enterLoop i =>
      simp only [replayFin] at h
      split at h
      · rcases ih (i :: s) d s2 d2 h x hx with hl | hd
        · exact Or.inl (List.mem_cons_of_mem _ hl)
        · exact Or.inr hd
      · exact absurd h (by simp)
    | leaveLoop i =>
      cases s with
      | nil => exact absurd h (by simp [replayFin])
      | cons j t =>
        simp only [replayFin] at h
        split at h
        · rcases ih t d s2 d2 h x hx with hl | hd
          · exact Or.inl (List.mem_cons_of_mem _ hl)
          · exact Or.inr hd
        · exact absurd h (by simp)
    | runInsn n =>
      simp only [replayFin] at h
      split at h
      · rcases ih s (n :: d) s2 d2 h x hx with hl | hd
        · exact Or.inl (List.mem_cons_of_mem _ hl)
        · rcases List.mem_cons.mp hd with hxn | hxd
          · exact Or.inl (hxn ▸ List.mem_cons_self _ _)
          · exact Or.inr hxd
      · exact absurd h (by simp)
    | barrier =>
      simp only [replayFin] at h
      rcases ih s d s2 d2 h x hx with hl | hd
      · exact Or.inl (List.mem_cons_of_mem _ hl)
      · exact Or.inr hd

theorem replayFin_run_exists (k : Kernel) (l : List SchedItem) :
    ∀ (s : List String) (d : List Nat) (res : List String × List Nat),
      replayFin k l s d = some res →
      ∀ n, SchedItem.runInsn n ∈ l → ∃ insn ∈ k.instructions, insn.id = n := by
  induction l with
  | nil => intro s d res _ n hn; exact absurd hn (by simp)
  | cons it rest ih =>
    intro s d res h n hn
    cases it with
    | enterLoop i =>
      simp only [replayFin] at h
      split at h
      · rcases List.mem_cons.mp hn with hne | hnr
        · exact absurd hne (by simp)
        · exact ih (i :: s) d res h n hnr
      · exact absurd h (by simp)
    | leaveLoop i =>
      cases s with
      | nil => exact absurd h (by simp [replayFin])
      | cons j t =>
        simp only [replayFin] at h
        split at h
        · rcases List.mem_cons.mp hn with hne | hnr
          · exact absurd hne (by simp)
          · exact ih t d res h n hnr
        · exact absurd h (by simp)
    | runInsn m =>
      simp only [replayFin] at h
      split at h
      · rename_i hcond
        rcases List.mem_cons.mp hn with hne | hnr
        · have hmn : m = n := by
            have := SchedItem.runInsn.inj hne.symm
            exact this
          exact hmn ▸ hcond.1
        · exact ih s (m :: d) res h n hnr
      · exact absurd h (by simp)
    | barrier =>
      simp only [replayFin] at h
      rcases List.mem_cons.mp hn with hne | hnr
      · exact absurd hne (by simp)
      · exact ih s d res h n hnr

theorem replayFin_hw (k : Kernel) (l : List SchedItem) :
    ∀ (s : List String) (d : List Nat) (s2 : List String) (d2 : List Nat),
      replayFin k l s d = some (s2, d2) → PairwiseHwOk k s → PairwiseHwOk k s2 := by
  induction l with
  | nil =>
    intro s d s2 d2 h hs
    simp only [replayFin, Option.some_inj, Prod.mk.injEq] at h
    exact h.1 ▸ hs
  | cons it rest ih =>
    intro s d s2 d2 h hs
    cases it with
    | enterLoop i =>
      simp only [replayFin] at h
      split at h
      · rename_i hcond
        exact ih (i :: s) d s2 d2 h (List.Pairwise.cons hcond hs)
      · exact absurd h (by simp)
    | leaveLoop i =>
      cases s with
      | nil => exact absurd h (by simp [replayFin])
      | cons j t =>
        simp only [replayFin] at h
        split at h
        · exact ih t d s2 d2 h (List.Pairwise.of_cons hs)
        · exact absurd h (by simp)
    | runInsn n =>
      simp only [replayFin] at h
      split at h
      · exact ih s (n :: d) s2 d2 h hs
      · exact absurd h (by simp)
    | barrier =>
      simp only [replayFin] at h
      exact ih s d s2 d2 h hs

theorem replayFin_prefix (k : Kernel) (pre post : List SchedItem) (s : List String)
    (d : List Nat) (res : List String × List Nat)
    (h : replayFin k (pre ++ post) s d = some res) :
    ∃ p, replayFin k pre s d = some p ∧ replayFin k post p.1 p.2 = some res := by
  rw [replayFin_append] at h
  cases hp : replayFin k pre s d with
  | none => rw [hp] at h; exact absurd h (by simp)
  | some p => rw [hp] at h; exact ⟨p, rfl, h⟩

theorem mem_runCandidates (k : Kernel) (st : SchedulerState) (insn : Instruction)
    (h : insn ∈ runCandidates k st) : insn ∈ k.instructions ∧ eligibleToRun st insn := by
  have hmem : insn ∈ k.instructions.filter (fun insn => decide (eligibleToRun st insn)) :=
    (List.Perm.mem_iff (List.perm_insertionSort priorityOrder _)).mp h
  have := List.mem_filter.mp hmem
  exact ⟨this.1, of_decide_eq_true this.2⟩

theorem mem_enterCandidates (k : Kernel) (st : SchedulerState) (i : String)
    (h : i ∈ enterCandidates k st) : enterCandidate k st i :=
  of_decide_eq_true (List.mem_filter.mp h).2

theorem mem_leaveStates (k : Kernel) (st st' : SchedulerState) (h : st' ∈ leaveStates k st) :
    ∃ h0 t, st.openLoops = h0 :: t ∧
      st' = { items := st.items ++ [SchedItem.leaveLoop h0],
              scheduled := st.scheduled, openLoops := t } := by
  unfold leaveStates at h
  split at h
  · exact absurd h (by simp)
  · rename_i h0 t heq
    split at h
    · rcases List.mem_singleton.mp h with rfl
      exact ⟨h0, t, heq, rfl⟩
    · exact absurd h (by simp)

theorem uniqueIds_inj (k : Kernel) (hU : UniqueIds k) (a b : Instruction)
    (ha : a ∈ k.instructions) (hb : b ∈ k.instructions) (hid : a.id = b.id) : a = b :=
  List.inj_on_of_nodup_map hU ha hb hid

theorem schedInv_run (k : Kernel) (hU : UniqueIds k) (st : SchedulerState) (insn : Instruction)
    (hmem : insn ∈ k.instructions) (helig : eligibleToRun st insn)
    (hinv : SchedInv k st) : SchedInv k (applyRun st insn) := by
  unfold SchedInv applyRun
  rw [replayFin_append, hinv]
  simp only [Option.some_bind]
  have hcond : (∃ i ∈ k.instructions, i.id = insn.id) ∧
      (∀ i ∈ k.instructions, i.id = insn.id →
        (∀ d ∈ i.deps, d ∈ st.scheduled) ∧ (∀ x ∈ i.within, x ∈ st.openLoops) ∧
          (∀ x ∈ st.openLoops, x ∈ i.within)) := by
    refine ⟨⟨insn, hmem, rfl⟩, ?_⟩
    intro i hi hid
    have : i = insn := uniqueIds_inj k hU i insn hi hmem hid
    subst this
    exact ⟨helig.2.1, helig.2.2.1, helig.2.2.2⟩
  simp only [replayFin, if_pos hcond]

theorem schedInv_enter (k : Kernel) (st : SchedulerState) (i : String)
    (hcand : enterCandidate k st i) (hinv : SchedInv k st) : SchedInv k (applyEnter st i) := by
  unfold SchedInv applyEnter
  rw [replayFin_append, hinv]
  simp only [Option.some_bind]
  simp only [replayFin, if_pos hcand.2.2]

theorem schedInv_leave (k : Kernel) (st st' : SchedulerState)
    (h : st' ∈ leaveStates k st) (hinv : SchedInv k st) : SchedInv k st' := by
  obtain ⟨h0, t, heq, rfl⟩ := mem_leaveStates k st st' h
  unfold SchedInv
  rw [replayFin_append, hinv]
  simp only [Option.some_bind, heq]
  simp [replayFin]

theorem schedInv_next (k : Kernel) (hU : UniqueIds k) (st st' : SchedulerState)
    (h : st' ∈ nextStates k st) (hinv : SchedInv k st) : SchedInv k st' := by
  unfold nextStates at h
  rcases List.mem_append.mp h with h | hleave
  · rcases List.mem_append.mp h with hrun | henter
    · obtain ⟨insn, hins, rfl⟩ := List.mem_map.mp hrun
      have := mem_runCandidates k st insn hins
      exact schedInv_run k hU st insn this.1 this.2 hinv
    · obtain ⟨i, hi, rfl⟩ := List.mem_map.mp henter
      exact schedInv_enter k st i (mem_enterCandidates k st i hi) hinv
  · exact schedInv_leave k st st' hleave hinv

theorem searchAux_sound (k : Kernel) (hU : UniqueIds k) :
    ∀ (fuel : Nat) (st : SchedulerState), SchedInv k st →
      ∀ sched ∈ searchAux k fuel st, ∃ d, replayFin k sched [] [] = some ([], d) := by
  intro fuel
  induction fuel with
  | zero => intro st _ sched h; exact absurd h (by simp [searchAux])
  | succ fuel ih =>
    intro st hinv sched h
    rw [searchAux] at h
    split at h
    · rename_i hcomp
      rcases List.mem_singleton.mp h with rfl
      exact ⟨st.scheduled, by rw [hinv, hcomp.2]⟩
    · obtain ⟨ll, hll, hsched⟩ := List.mem_flatten.mp h
      obtain ⟨st', hst', rfl⟩ := List.mem_map.mp hll
      exact ih st' (schedInv_next k hU st st' hst' hinv) sched hsched

theorem generate_sound (k : Kernel) (cfg : SchedConfig) (hU : UniqueIds k) :
    ∀ sched ∈ generate_loop_schedules k cfg, ∃ d, replayFin k sched [] [] = some ([], d) := by
  intro sched h
  have hmem : sched ∈ searchAux k cfg.search_node_budget {} :=
    List.take_subset _ _ h
  exact searchAux_sound k hU cfg.search_node_budget {} rfl sched hmem

/-- C1: in every accepted schedule of the linearization engine, every
predecessor of a run instruction (from the dependency information on the
instruction) appears as a run-instruction item strictly earlier in the
sequence, that is, inside the prefix before it. -/
theorem c1_deps_run_before (k : Kernel) (cfg : SchedConfig) (sched : List SchedItem)
    (hU : UniqueIds k) (hmem : sched ∈ generate_loop_schedules k cfg)
    (pre post : List SchedItem) (n : Nat) (hsplit : sched = pre ++ SchedItem.runInsn n :: post)
    (insn : Instruction) (hins : insn ∈ k.instructions) (hid : insn.id = n) :
    ∀ dep ∈ insn.deps, SchedItem.runInsn dep ∈ pre := by
  intro dep hdep
  obtain ⟨d, hfin⟩ := generate_sound k cfg hU sched hmem
  rw [hsplit] at hfin
  obtain ⟨p, hpre, hpost⟩ := replayFin_prefix k pre _ [] [] _ hfin
  simp only [replayFin] at hpost
  split at hpost
  · rename_i hcond
    have hdd : dep ∈ p.2 := ((hcond.2 insn hins hid).1) dep hdep
    rcases replayFin_done_mem k pre [] [] p.1 p.2 (by rw [hpre]) dep hdd with h | h
    · exact h
    · exact absurd h (by simp)
  · exact absurd hpost (by simp)

theorem c1_deps_run_before_witness :
    SchedItem.runInsn 0 ∈ [SchedItem.runInsn 0] :=
  c1_deps_run_before
    { instructions := [{ id := 0 }, { id := 1, deps := [0] }] }
    { search_node_budget := 5, max_schedules := 4 }
    [SchedItem.runInsn 0, SchedItem.runInsn 1]
    (by decide) (by decide)
    [SchedItem.runInsn 0] [] 1 rfl
    { id := 1, deps := [0] } (by decide) rfl
    0 (by decide)

/-- C2: every accepted schedule is properly nested and balanced — its
stack replay succeeds and ends with an empty stack — and at the position
of every run-instruction item the stack of open inames is exactly, as a
set, the within-inames of that instruction. -/
theorem c2_nesting_and_within (k : Kernel) (cfg : SchedConfig) (sched : List SchedItem)
    (hU : UniqueIds k) (hmem : sched ∈ generate_loop_schedules k cfg) :
    replayStack sched [] = some [] ∧
      ∀ (pre post : List SchedItem) (n : Nat), sched = pre ++ SchedItem.runInsn n :: post →
        ∀ insn ∈ k.instructions, insn.id = n →
          ∃ s, replayStack pre [] = some s ∧
            (∀ x ∈ s, x ∈ insn.within) ∧ (∀ x ∈ insn.within, x ∈ s) := by
  obtain ⟨d, hfin⟩ := generate_sound k cfg hU sched hmem
  constructor
  · exact replayFin_stack k sched [] [] [] d hfin
  · intro pre post n hsplit insn hins hid
    rw [hsplit] at hfin
    obtain ⟨p, hpre, hpost⟩ := replayFin_prefix k pre _ [] [] _ hfin
    refine ⟨p.1, replayFin_stack k pre [] [] p.1 p.2 (by rw [hpre]), ?_⟩
    simp only [replayFin] at hpost
    split at hpost
    · rename_i hcond
      have := hcond.2 insn hins hid
      exact ⟨this.2.2, this.2.1⟩
    · exact absurd hpost (by simp)

theorem c2_nesting_and_within_witness :
    replayStack [SchedItem.enterLoop "i", SchedItem.runInsn 0, SchedItem.leaveLoop "i"] [] =
      some [] :=
  (c2_nesting_and_within
    { instructions := [{ id := 0, within := ["i"] }],
      inameTags := [("i", Tag.sequential)] }
    { search_node_budget := 6, max_schedules := 4 }
    [SchedItem.enterLoop "i", SchedItem.runInsn 0, SchedItem.leaveLoop "i"]
    (by decide) (by decide)).1

/-- C3: at no position of an accepted schedule do two inames of the same
hardware-parallel tag class sit simultaneously in the open-iname stack:
the stack reached by replaying any prefix is pairwise free of repeated
hardware-parallel classes, so such an iname is never nested inside
another of its class. -/
theorem c3_no_same_hw_class_nesting (k : Kernel) (cfg : SchedConfig) (sched : List SchedItem)
    (hU : UniqueIds k) (hmem : sched ∈ generate_loop_schedules k cfg)
    (pre post : List SchedItem) (hsplit : sched = pre ++ post)
    (s : List String) (hstack : replayStack pre [] = some s) :
    List.Pairwise (fun a b => ¬ sameHwClass (k.tagOf a) (k.tagOf b)) s := by
  obtain ⟨d, hfin⟩ := generate_sound k cfg hU sched hmem
  rw [hsplit] at hfin
  obtain ⟨p, hpre, _⟩ := replayFin_prefix k pre post [] [] _ hfin
  have hs : replayStack pre [] = some p.1 :=
    replayFin_stack k pre [] [] p.1 p.2 (by rw [hpre])
  have heq : s = p.1 := by
    rw [hstack] at hs
    exact Option.some_inj.mp hs
  subst heq
  exact replayFin_hw k pre [] [] p.1 p.2 (by rw [hpre]) List.Pairwise.nil

theorem c3_no_same_hw_class_nesting_witness :
    List.Pairwise
      (fun a b => ¬ sameHwClass
        ((Kernel.mk [{ id := 0, within := ["g", "l"] }]
          [("g", Tag.hwGroup), ("l", Tag.hwLocal)]).tagOf a)
        ((Kernel.mk [{ id := 0, within := ["g", "l"] }]
          [("g", Tag.hwGroup), ("l", Tag.hwLocal)]).tagOf b))
      ["l", "g"] :=
  c3_no_same_hw_class_nesting
    (Kernel.mk [{ id := 0, within := ["g", "l"] }] [("g", Tag.hwGroup), ("l", Tag.hwLocal)])
    { search_node_budget := 8, max_schedules := 6 }
    [SchedItem.enterLoop "g", SchedItem.enterLoop "l", SchedItem.runInsn 0,
      SchedItem.leaveLoop "l", SchedItem.leaveLoop "g"]
    (by decide) (by decide)
    [SchedItem.enterLoop "g", SchedItem.enterLoop "l"]
    [SchedItem.runInsn 0, SchedItem.leaveLoop "l", SchedItem.leaveLoop "g"]
    rfl ["l", "g"] (by decide)

/-- C4: scheduling is deterministic — the engine is a pure function of the
kernel model and the configuration, with all tie-breaks resolved by the
fixed priority-then-declaration order, so two runs with identical
configuration yield identical schedule lists and the selected schedules
agree item for item. -/
theorem c4_deterministic (k : Kernel) (cfg1 cfg2 : SchedConfig) (h : cfg1 = cfg2) :
    generate_loop_schedules k cfg1 = generate_loop_schedules k cfg2 ∧
      ∀ s1 s2, get_one_scheduled_kernel k cfg1 = some s1 →
        get_one_scheduled_kernel k cfg2 = some s2 → ∀ i, s1.get? i = s2.get? i := by
  subst h
  refine ⟨rfl, ?_⟩
  intro s1 s2 h1 h2 i
  rw [h1] at h2
  rw [Option.some_inj.mp h2]

theorem c4_deterministic_witness :
    generate_loop_schedules { instructions := [{ id := 0 }] } { search_node_budget := 3 } =
      generate_loop_schedules { instructions := [{ id := 0 }] } { search_node_budget := 3 } :=
  (c4_deterministic { instructions := [{ id := 0 }] }
    { search_node_budget := 3 } { search_node_budget := 3 } rfl).1

theorem identity_reductionFree (op : ReduOp) : reductionFree op.identity = true := by
  cases op <;> rfl

theorem realizeExpr_reductionFree (tags : List (String × Tag)) (w : List String) :
    ∀ (e : Expr) (c : Nat),
      reductionFree (realizeExpr tags w e c).expr = true ∧
        ∀ insn ∈ (realizeExpr tags w e c).newInsns, reductionFree insn.expr = true := by
  intro e
  induction e with
  | var s => intro c; exact ⟨rfl, by simp [realizeExpr]⟩
  | lit n => intro c; exact ⟨rfl, by simp [realizeExpr]⟩
  | binop op a b iha ihb =>
    intro c
    constructor
    · simp only [realizeExpr, reductionFree, Bool.and_eq_true]
      exact ⟨(iha c).1, (ihb _).1⟩
    · intro insn hmem
      simp only [realizeExpr, List.mem_append] at hmem
      rcases hmem with hmem | hmem
      · exact (iha c).2 insn hmem
      · exact (ihb _).2 insn hmem
  | reduce op inames body ih =>
    intro c
    simp only [realizeExpr]
    split
    · refine ⟨rfl, ?_⟩
      intro insn hmem
      simp only [List.mem_append, List.mem_cons, List.not_mem_nil, or_false] at hmem
      rcases hmem with hmem | rfl | rfl | rfl
      · exact (ih c).2 insn hmem
      · exact identity_reductionFree op
      · simp only [reductionFree, Bool.and_eq_true]
        exact ⟨trivial, (ih c).1⟩
      · rfl
    · refine ⟨rfl, ?_⟩
      intro insn hmem
      simp only [List.mem_append, List.mem_cons, List.not_mem_nil, or_false] at hmem
      rcases hmem with hmem | rfl | rfl
      · exact (ih c).2 insn hmem
      · exact identity_reductionFree op
      · simp only [reductionFree, Bool.and_eq_true]
        exact ⟨trivial, (ih c).1⟩

theorem realizeInsn_reductionFree (tags : List (String × Tag)) (insn : Instruction) (c : Nat) :
    ∀ j ∈ (realizeInsn tags insn c).1, reductionFree j.expr = true := by
  intro j hmem
  simp only [realizeInsn, List.mem_append, List.mem_singleton] at hmem
  rcases hmem with hmem | rfl
  · exact (realizeExpr_reductionFree tags insn.within insn.expr c).2 j hmem
  · exact (realizeExpr_reductionFree tags insn.within insn.expr c).1

theorem realizeList_reductionFree (tags : List (String × Tag)) :
    ∀ (l : List Instruction) (c : Nat),
      ∀ j ∈ realizeList tags l c, reductionFree j.expr = true := by
  intro l
  induction l with
  | nil => intro c j hmem; exact absurd hmem (by simp [realizeList])
  | cons insn rest ih =>
    intro c j hmem
    simp only [realizeList, List.mem_append] at hmem
    rcases hmem with hmem | hmem
    · exact realizeInsn_reductionFree tags insn c j hmem
    · exact ih _ j hmem

theorem realize_reduction_reductionFree (k : Kernel) :
    ∀ insn ∈ (realize_reduction k).instructions, reductionFree insn.expr = true := by
  intro insn hmem
  exact realizeList_reductionFree k.inameTags k.instructions _ insn hmem

/-- C5: after the Reduction Realizer has run, linearization leaves no
unrealized reduction in the final schedule — every run-instruction item of
an accepted schedule of the realized kernel refers to an instruction of
that kernel whose expression is free of reduction nodes. -/
theorem c5_realize_then_schedule (k : Kernel) (cfg : SchedConfig) (sched : List SchedItem)
    (hU : UniqueIds (realize_reduction k))
    (hmem : sched ∈ generate_loop_schedules (realize_reduction k) cfg) :
    ∀ n, SchedItem.runInsn n ∈ sched →
      ∃ insn ∈ (realize_reduction k).instructions, insn.id = n ∧
        reductionFree insn.expr = true := by
  intro n hn
  obtain ⟨d, hfin⟩ := generate_sound (realize_reduction k) cfg hU sched hmem
  obtain ⟨insn, hins, hid⟩ := replayFin_run_exists (realize_reduction k) sched [] [] _ hfin n hn
  exact ⟨insn, hins, hid, realize_reduction_reductionFree k insn hins⟩

theorem c5_realize_then_schedule_witness :
    ∃ insn ∈ (realize_reduction
        { instructions := [{ id := 0, expr := Expr.reduce ReduOp.sum ["r"] (Expr.var "x") }],
          inameTags := [("r", Tag.sequential)] }).instructions,
      insn.id = 1 ∧ reductionFree insn.expr = true :=
  c5_realize_then_schedule
    { instructions := [{ id := 0, expr := Expr.reduce ReduOp.sum ["r"] (Expr.var "x") }],
      inameTags := [("r", Tag.sequential)] }
    { search_node_budget := 12, max_schedules := 1 }
    [SchedItem.runInsn 1, SchedItem.runInsn 0, SchedItem.enterLoop "r",
      SchedItem.runInsn 2, SchedItem.leaveLoop "r"]
    (by decide) (by decide) 1 (by decide)

theorem chain_incoming (edges : List (Nat × Nat)) :
    ∀ (rest : List Nat) (a : Nat), chainOk edges (a :: rest) →
      ∀ n ∈ rest, ∃ m ∈ a :: rest, (m, n) ∈ edges := by
  intro rest
  induction rest with
  | nil => intro a _ n hn; exact absurd hn (by simp)
  | cons b rest ih =>
    intro a hc n hn
    have hc' : (a, b) ∈ edges ∧ chainOk edges (b :: rest) := hc
    rcases List.mem_cons.mp hn with rfl | hn
    · exact ⟨a, List.mem_cons_self a _, hc'.1⟩
    · obtain ⟨m, hm, hedge⟩ := ih b hc'.2 n hn
      exact ⟨m, List.mem_cons_of_mem a hm, hedge⟩

theorem getLastD_mem_cons (t : List Nat) (h : Nat) : t.getLastD h ∈ h :: t := by
  induction t generalizing h with
  | nil => exact List.mem_singleton.mpr rfl
  | cons x xs ih =>
    rw [List.getLastD_cons]
    rcases List.mem_cons.mp (ih x) with heq | hmem
    · rw [heq]
      exact List.mem_cons_of_mem h (List.mem_cons_self x xs)
    · exact List.mem_cons_of_mem h (List.mem_cons_of_mem x hmem)

theorem cycle_incoming (edges : List (Nat × Nat)) (c : List Nat) (hc : IsCycle edges c) :
    ∀ n ∈ c, ∃ m ∈ c, (m, n) ∈ edges := by
  cases c with
  | nil => exact absurd hc (fun h => h)
  | cons h t =>
    intro n hn
    have hcyc : chainOk edges (h :: t) ∧ (t.getLastD h, h) ∈ edges := hc
    rcases List.mem_cons.mp hn with rfl | hn
    · exact ⟨t.getLastD n, getLastD_mem_cons t n, hcyc.2⟩
    · exact chain_incoming edges t h hcyc.1 n hn

theorem elimStep_keeps (edges : List (Nat × Nat)) (c rem : List Nat)
    (hin : ∀ n ∈ c, ∃ m ∈ c, (m, n) ∈ edges) (hsub : ∀ n ∈ c, n ∈ rem) :
    ∀ n ∈ c, n ∈ elimStep edges rem := by
  intro n hn
  refine List.mem_filter.mpr ⟨hsub n hn, decide_eq_true ?_⟩
  obtain ⟨m, hm, hedge⟩ := hin n hn
  exact ⟨(m, n), hedge, rfl, hsub m hm⟩

theorem elimAux_keeps (edges : List (Nat × Nat)) (c : List Nat)
    (hin : ∀ n ∈ c, ∃ m ∈ c, (m, n) ∈ edges) :
    ∀ (f : Nat) (rem : List Nat), (∀ n ∈ c, n ∈ rem) → ∀ n ∈ c, n ∈ elimAux edges f rem := by
  intro f
  induction f with
  | zero => intro rem hsub n hn; exact hsub n hn
  | succ f ih =>
    intro rem hsub n hn
    exact ih (elimStep edges rem) (elimStep_keeps edges c rem hin hsub) n hn

/-- C6: when the derived must-precede relation of an instruction set
contains a cycle, the Dependency Graph Builder fails with a structural
error whose offending set is nonempty and contains every instruction of
the cycle; the cycle is never resolved into a successful result. -/
theorem c6_cycle_is_fatal (instrs : List Instruction) (readsOf writesOf : Nat → List String)
    (c : List Nat) (hcyc : IsCycle (depEdges instrs readsOf writesOf) c)
    (hids : ∀ n ∈ c, n ∈ instrs.map Instruction.id) :
    ∃ err : DepGraphError, build_dependency_graph instrs readsOf writesOf = Except.error err ∧
      err.offending ≠ [] ∧ ∀ n ∈ c, n ∈ err.offending := by
  have hin := cycle_incoming (depEdges instrs readsOf writesOf) c hcyc
  have hkeep := elimAux_keeps (depEdges instrs readsOf writesOf) c hin instrs.length
    (instrs.map Instruction.id) hids
  have hcne : c ≠ [] := by
    intro h
    rw [h] at hcyc
    exact hcyc
  have hbadne : elimAux (depEdges instrs readsOf writesOf) instrs.length
      (instrs.map Instruction.id) ≠ [] := by
    cases c with
    | nil => exact absurd rfl hcne
    | cons h t =>
      intro hempty
      have := hkeep h (List.mem_cons_self h t)
      rw [hempty] at this
      exact absurd this (by simp)
  refine ⟨⟨elimAux (depEdges instrs readsOf writesOf) instrs.length
    (instrs.map Instruction.id)⟩, ?_, hbadne, hkeep⟩
  unfold build_dependency_graph
  rw [if_neg hbadne]

theorem c6_cycle_is_fatal_witness :
    ∃ err : DepGraphError,
      build_dependency_graph [{ id := 0, deps := [1] }, { id := 1, deps := [0] }]
        (fun _ => []) (fun _ => []) = Except.error err ∧
      err.offending ≠ [] ∧ ∀ n ∈ [0, 1], n ∈ err.offending :=
  c6_cycle_is_fatal [{ id := 0, deps := [1] }, { id := 1, deps := [0] }]
    (fun _ => []) (fun _ => []) [0, 1] (by decide) (by decide)

theorem setattr_keys (o : Opts) (key : String) (v : Int) :
    (o.setattr key v).entries.map Prod.fst = o.entries.map Prod.fst := by
  obtain ⟨l⟩ := o
  simp only [Opts.setattr, List.map_map]
  induction l with
  | nil => rfl
  | cons p rest ih =>
    simp only [List.map_cons, ih]
    by_cases h : p.1 = key
    · simp [Function.comp, h]
    · simp [Function.comp, h]

theorem setattr_hasKey (o : Opts) (key : String) (v : Int) (x : String) :
    (o.setattr key v).hasKey x ↔ o.hasKey x := by
  unfold Opts.hasKey
  rw [setattr_keys]

theorem setAttrsLoop_ok :
    ∀ (kws : List (String × Int)) (o : Opts), (∀ p ∈ kws, o.hasKey p.1) →
      setAttrsLoop o kws = Except.ok (applyKwargs o kws) := by
  intro kws
  induction kws with
  | nil => intro o _; rfl
  | cons p rest ih =>
    intro o h
    obtain ⟨key, v⟩ := p
    have hk : o.hasKey key := h (key, v) (List.mem_cons_self _ _)
    simp only [setAttrsLoop, if_pos hk]
    exact ih (o.setattr key v)
      (fun q hq => (setattr_hasKey o key v q.1).mpr (h q (List.mem_cons_of_mem _ hq)))

theorem setAttrsLoop_error :
    ∀ (kws : List (String × Int)) (o : Opts), (∃ p ∈ kws, ¬ o.hasKey p.1) →
      ∃ key, ¬ o.hasKey key ∧ key ∈ kws.map Prod.fst ∧
        setAttrsLoop o kws = Except.error (OptErr.valueErr ("unknown option " ++ key)) := by
  intro kws
  induction kws with
  | nil => intro o h; simp at h
  | cons p rest ih =>
    intro o h
    obtain ⟨key, v⟩ := p
    by_cases hk : o.hasKey key
    · obtain ⟨q, hq, hqk⟩ := h
      have hqrest : q ∈ rest := by
        rcases List.mem_cons.mp hq with rfl | hq'
        · exact absurd hk hqk
        · exact hq'
      obtain ⟨key', hnk', hmem', heq'⟩ := ih (o.setattr key v)
        ⟨q, hqrest, fun hh => hqk ((setattr_hasKey o key v q.1).mp hh)⟩
      refine ⟨key', fun hh => hnk' ((setattr_hasKey o key v key').mpr hh), ?_, ?_⟩
      · exact List.mem_cons_of_mem _ hmem'
      · simp only [setAttrsLoop, if_pos hk]
        exact heq'
    · exact ⟨key, hk, by simp, by simp [setAttrsLoop, if_neg hk]⟩

/-- C10: set_options rejects malformed calls and otherwise returns a new
kernel with updated options — a TypeError when positional and keyword
arguments are mixed, a ValueError naming the option when a keyword (after
legacy-name mapping) is not an existing options attribute, a TypeError
unless exactly one positional argument is given when no keywords are
present, and on success a kernel carrying a copy of the options with the
requested values set (the input kernel's own options value is a pure
value and is untouched). -/
theorem c10_set_options (lmap : List (String × String)) (mk : String → Opts)
    (k : LoopKernel) (args : List String) (kwargs : List (String × Int)) :
    (args ≠ [] → kwargs ≠ [] → set_options lmap mk k args kwargs =
      Except.error (OptErr.typeErr "cannot pass both positional and keyword arguments")) ∧
    (args = [] → (∃ p ∈ apply_legacy_map lmap kwargs, ¬ k.options.hasKey p.1) →
      ∃ key, ¬ k.options.hasKey key ∧
        key ∈ (apply_legacy_map lmap kwargs).map Prod.fst ∧
        set_options lmap mk k args kwargs =
          Except.error (OptErr.valueErr ("unknown option " ++ key))) ∧
    (kwargs = [] → args.length ≠ 1 → ∃ msg, set_options lmap mk k args kwargs =
      Except.error (OptErr.typeErr msg)) ∧
    (args = [] → (∀ p ∈ apply_legacy_map lmap kwargs, k.options.hasKey p.1) → kwargs ≠ [] →
      set_options lmap mk k args kwargs =
        Except.ok { k with options := applyKwargs k.options (apply_legacy_map lmap kwargs) }) ∧
    (∀ a, kwargs = [] → args = [a] →
      set_options lmap mk k args kwargs =
        Except.ok { k with options := k.options.update (mk a) }) := by
  refine ⟨?_, ?_, ?_, ?_, ?_⟩
  · intro ha hk
    unfold set_options
    rw [if_pos ⟨ha, hk⟩]
  · intro ha hbad
    have hkne : kwargs ≠ [] := by
      intro h
      rw [h] at hbad
      obtain ⟨p, hp, _⟩ := hbad
      exact absurd hp (by simp [apply_legacy_map])
    obtain ⟨key, hnk, hmem, heq⟩ := setAttrsLoop_error (apply_legacy_map lmap kwargs)
      k.options hbad
    refine ⟨key, hnk, hmem, ?_⟩
    unfold set_options
    rw [if_neg (fun hc => hc.1 ha), if_pos hkne, heq]
    rfl
  · intro hk ha
    unfold set_options
    rw [if_neg (fun hc => hc.2 hk), if_neg (fun hc => hc hk)]
    cases args with
    | nil => exact ⟨_, rfl⟩
    | cons a rest =>
      cases rest with
      | nil => exact absurd rfl ha
      | cons b rest2 => exact ⟨_, rfl⟩
  · intro ha hok hkne
    unfold set_options
    rw [if_neg (fun hc => hc.1 ha), if_pos hkne,
      setAttrsLoop_ok (apply_legacy_map lmap kwargs) k.options hok]
    rfl
  · intro a hk ha
    unfold set_options
    rw [if_neg (fun hc => hc.2 hk), if_neg (fun hc => hc hk), ha]

theorem c10_set_options_witness :
    set_options [] (fun _ => ⟨[]⟩) { options := ⟨[]⟩ } ["opts"] [("x", 1)] =
      Except.error (OptErr.typeErr "cannot pass both positional and keyword arguments") :=
  (c10_set_options [] (fun _ => ⟨[]⟩) { options := ⟨[]⟩ } ["opts"] [("x", 1)]).1
    (by decide) (by decide)
